import Mathlib

/-!
Shallow embedding of the ratelink rate-limiting core, with proofs of the
specification's claims about its algorithms.

Times, token counts and durations are modelled as exact rationals (the
source computes in IEEE doubles; all claim-relevant scenarios are exact
in both).  Each algorithm's per-key mutable state is threaded explicitly.
-/

namespace Ratelink

/-- Python `int(x)` truncation toward zero, on rationals. -/
def pyInt (q : ℚ) : ℤ := if 0 ≤ q then ⌊q⌋ else -⌊-q⌋

/-- Python float floor-division `a // b`. -/
def pyFloorDiv (a b : ℚ) : ℚ := (⌊a / b⌋ : ℤ)

/-- Decision record returned by every admission call
(`RateLimitState` in `src/types.py`; `metadata` is carried separately
per algorithm).  `__post_init__` clamps a negative `remaining` to 0. -/
structure RLState where
  limit : ℤ
  remaining : ℤ
  reset_at : ℚ
  retry_after : ℚ
  violated : Bool
  deriving Repr, DecidableEq

/-- Constructor mirroring `RateLimitState.__post_init__`: a negative
`remaining` is replaced by 0 (the `limit < 0` branch raises and is outside
the claims' domain). -/
def mkRLState (limit remaining : ℤ) (reset_at retry_after : ℚ)
    (violated : Bool) : RLState :=
  { limit := limit
    remaining := max 0 remaining
    reset_at := reset_at
    retry_after := retry_after
    violated := violated }

/-! ## Token bucket (`src/algorithms/token_bucket.py`) -/

/-- Constructor parameters of `TokenBucketAlgorithm`. -/
structure TBParams where
  capacity : ℚ
  refill_rate : ℚ
  refill_period : ℚ
  initial_tokens : ℚ
  deriving Repr

/-- Per-key persisted token-bucket state: `(tokens, last_refill)`,
`none` before first contact (absence from `self._buckets`). -/
abbrev TBState := Option (ℚ × ℚ)

/-- `TokenBucketAlgorithm._refill_tokens` for one key. -/
def tbRefill (p : TBParams) (st : TBState) (current_time : ℚ) : ℚ × ℚ :=
  match st with
  | none => (p.initial_tokens, current_time)
  | some (tokens, last_refill) =>
      let time_passed := current_time - last_refill
      if 0 < time_passed then
        let tokens_to_add := (time_passed / p.refill_period) * p.refill_rate
        (min p.capacity (tokens + tokens_to_add), current_time)
      else
        (tokens, current_time)

/-- `TokenBucketAlgorithm.allow` for one key at instant `current_time`:
returns (admitted, decision record, new persisted state).  The
`weight <= 0` guard raises in the source; claims only concern `w ≥ 1`. -/
def tbAllow (p : TBParams) (st : TBState) (weight : ℕ) (current_time : ℚ) :
    Bool × RLState × TBState :=
  let r := tbRefill p st current_time
  let tokens := r.1
  if (weight : ℚ) ≤ tokens then
    let tokens' := tokens - weight
    let tokens_needed := p.capacity - tokens'
    let seconds_to_full := (tokens_needed / p.refill_rate) * p.refill_period
    (true,
     mkRLState (pyInt p.capacity) (pyInt tokens')
       (current_time + seconds_to_full) 0 false,
     some (tokens', current_time))
  else
    let tokens_needed := (weight : ℚ) - tokens
    let retry_after := (tokens_needed / p.refill_rate) * p.refill_period
    (false,
     mkRLState (pyInt p.capacity) (pyInt tokens)
       (current_time + retry_after) retry_after true,
     some (tokens, current_time))

/-- Run a sequence of `(instant, weight)` admission calls on one key,
returning the per-call decisions and the final state. -/
def tbRun (p : TBParams) : TBState → List (ℚ × ℕ) →
    List (Bool × RLState) × TBState
  | st, [] => ([], st)
  | st, (t, w) :: rest =>
      let step := tbAllow p st w t
      let tail := tbRun p step.2.2 rest
      ((step.1, step.2.1) :: tail.1, tail.2)

/-! ## Leaky bucket (`src/src/universe/algorithms/leaky_bucket.py`) -/

/-- Constructor parameters of `LeakyBucketAlgorithm`. -/
structure LBParams where
  capacity : ℕ
  leak_rate : ℚ
  leak_period : ℚ
  deriving Repr

/-- Per-key persisted leaky-bucket state: `(queue, last_leak)` with the
queue a list of admission instants, `none` before first contact. -/
abbrev LBState := Option (List ℚ × ℚ)

/-- `LeakyBucketAlgorithm._leak_bucket` for one key: returns the (possibly
drained) queue and the updated persisted state.  An absent key yields an
empty queue without creating an entry; the drain count
`int((time_passed/leak_period)*leak_rate)` is capped at the queue length,
and the state (queue and `last_leak`) is written back only when time has
passed. -/
def lbLeak (p : LBParams) (st : LBState) (current_time : ℚ) : List ℚ × LBState :=
  match st with
  | none => ([], none)
  | some (queue, last_leak) =>
      let time_passed := current_time - last_leak
      if 0 < time_passed then
        let leaks := pyInt ((time_passed / p.leak_period) * p.leak_rate)
        let queue' := queue.drop (min leaks.toNat queue.length)
        (queue', some (queue', current_time))
      else
        (queue, st)

/-- `LeakyBucketAlgorithm.allow` for one key: returns
(admitted, decision record, new persisted state).  On admission the source
re-reads `self._buckets[key]` (creating an empty fresh entry when absent),
appends `weight` stamps and writes back `(queue, current_time)`; on denial
the state as left by `_leak_bucket` persists. -/
def lbAllow (p : LBParams) (st : LBState) (weight : ℕ) (current_time : ℚ) :
    Bool × RLState × LBState :=
  let lk := lbLeak p st current_time
  let queue := lk.1
  let st1 := lk.2
  let current_size := queue.length
  if current_size + weight ≤ p.capacity then
    let base := match st1 with
      | some (q, _) => q
      | none => []
    let queue' := base ++ List.replicate weight current_time
    let time_to_empty := ((queue'.length : ℚ) / p.leak_rate) * p.leak_period
    (true,
     mkRLState p.capacity ((p.capacity : ℤ) - (current_size + weight))
       (current_time + time_to_empty) 0 false,
     some (queue', current_time))
  else
    let items_to_leak := ((current_size + weight : ℕ) : ℚ) - p.capacity
    let retry_after := (items_to_leak / p.leak_rate) * p.leak_period
    (false,
     mkRLState p.capacity 0 (current_time + retry_after) retry_after true,
     st1)

/-! ## Sliding window log (`src/algorithms/sliding_window.py`) -/

/-- Constructor parameters of `SlidingWindowAlgorithm`. -/
structure SWParams where
  limit : ℕ
  window_seconds : ℚ
  deriving Repr

/-- `SlidingWindowAlgorithm._cleanup_old_requests` for one key: keep the
timestamps strictly newer than `current_time - window_seconds` (an absent
key behaves as the empty list). -/
def swCleanup (p : SWParams) (reqs : List ℚ) (current_time : ℚ) : List ℚ :=
  reqs.filter (fun ts => current_time - p.window_seconds < ts)

/-- `SlidingWindowAlgorithm.allow` for one key: returns
(admitted, decision record, new persisted timestamp log). -/
def swAllow (p : SWParams) (reqs : List ℚ) (weight : ℕ) (current_time : ℚ) :
    Bool × RLState × List ℚ :=
  let requests := swCleanup p reqs current_time
  let current_count := requests.length
  if current_count + weight ≤ p.limit then
    (true,
     mkRLState p.limit ((p.limit : ℤ) - (current_count + weight))
       (current_time + p.window_seconds) 0 false,
     requests ++ List.replicate weight current_time)
  else
    let retry_after :=
      match requests.min? with
      | some oldest => max 0 (oldest + p.window_seconds - current_time)
      | none => 0
    (false,
     mkRLState p.limit 0 (current_time + retry_after) retry_after true,
     requests)

/-! ## Fixed window (`src/src/algorithms/fixed_window.py`) -/

/-- Constructor parameters of `FixedWindowAlgorithm`. -/
structure FWParams where
  limit : ℕ
  window_seconds : ℚ
  deriving Repr

/-- `FixedWindowAlgorithm._get_window_start`. -/
def fwWindowStart (W t : ℚ) : ℚ := pyFloorDiv t W * W

/-- `FixedWindowAlgorithm._get_current_window` for one key
(state `none` = key absent, `some (count, window_start)` otherwise). -/
def fwGetCurrentWindow (p : FWParams) (st : Option (ℕ × ℚ)) (t : ℚ) : ℕ × ℚ :=
  let window_start := fwWindowStart p.window_seconds t
  match st with
  | none => (0, window_start)
  | some (count, last_window_start) =>
      if last_window_start < window_start then (0, window_start)
      else (count, window_start)

/-- `FixedWindowAlgorithm.allow` for one key: returns
(admitted, decision record, new persisted state).  The persisted state is
written only on admission. -/
def fwAllow (p : FWParams) (st : Option (ℕ × ℚ)) (weight : ℕ) (t : ℚ) :
    Bool × RLState × Option (ℕ × ℚ) :=
  let cw := fwGetCurrentWindow p st t
  let count := cw.1
  let window_start := cw.2
  if count + weight ≤ p.limit then
    (true,
     mkRLState p.limit ((p.limit : ℤ) - (count + weight))
       (window_start + p.window_seconds) 0 false,
     some (count + weight, window_start))
  else
    (false,
     mkRLState p.limit 0 (window_start + p.window_seconds)
       (window_start + p.window_seconds - t) true,
     st)

/-- Run a sequence of `(instant, weight)` fixed-window admission calls on
one key, returning the per-call `(admitted, instant, weight)` records and
the final state. -/
def fwRun (p : FWParams) : Option (ℕ × ℚ) → List (ℚ × ℕ) →
    List (Bool × ℚ × ℕ) × Option (ℕ × ℚ)
  | st, [] => ([], st)
  | st, (t, w) :: rest =>
      let s := fwAllow p st w t
      let tl := fwRun p s.2.2 rest
      ((s.1, t, w) :: tl.1, tl.2)

/-- Total admitted weight among the recorded calls whose instants fall in
the aligned window `[n·W, (n+1)·W)`. -/
def fwAdmittedIn (W : ℚ) (n : ℤ) (results : List (Bool × ℚ × ℕ)) : ℕ :=
  ((results.filter
      (fun r => r.1 && decide ((n * W : ℚ) ≤ r.2.1) && decide (r.2.1 < (n + 1) * W))).map
    (fun r => r.2.2)).sum

/-! ## GCRA (`src/ratelink/algorithms/gcra.py`) -/

/-- Fields of `GCRAAlgorithm` after `__init__`. -/
structure GCRAParams where
  limit : ℕ
  period_seconds : ℚ
  burst : ℕ
  emission_interval : ℚ
  burst_allowance : ℚ
  deriving Repr

/-- `GCRAAlgorithm.__init__`: `burst` defaults to `limit`,
`emission_interval = period_seconds / limit`,
`burst_allowance = emission_interval * burst`. -/
def mkGCRA (limit : ℕ) (period_seconds : ℚ) (burst : Option ℕ) : GCRAParams :=
  let b := burst.getD limit
  { limit := limit
    period_seconds := period_seconds
    burst := b
    emission_interval := period_seconds / limit
    burst_allowance := (period_seconds / limit) * b }

/-- `GCRAAlgorithm.allow` for one key (state = stored `tat`, `none` before
first contact): returns (admitted, decision record, the `tat` metadata
entry, new persisted state).  The stored tat is written only on admission. -/
def gcraAllow (p : GCRAParams) (st : Option ℚ) (weight : ℕ) (current_time : ℚ) :
    Bool × RLState × ℚ × Option ℚ :=
  let tat := st.getD current_time
  let new_tat := max tat current_time + p.emission_interval * weight
  let allow_at := new_tat - p.burst_allowance
  if allow_at ≤ current_time then
    let time_since_tat := current_time - tat
    let remaining :=
      if 0 < time_since_tat then
        min (p.burst : ℤ) (pyInt (time_since_tat / p.emission_interval))
      else 0
    (true,
     mkRLState p.limit (max 0 remaining) new_tat 0 false,
     new_tat, some new_tat)
  else
    let retry_after := allow_at - current_time
    (false,
     mkRLState p.limit 0 allow_at retry_after true,
     tat, st)

/-- Run a sequence of `(instant, weight)` GCRA admission calls on one key. -/
def gcraRun (p : GCRAParams) : Option ℚ → List (ℚ × ℕ) →
    List (Bool × RLState) × Option ℚ
  | st, [] => ([], st)
  | st, (t, w) :: rest =>
      let s := gcraAllow p st w t
      let tl := gcraRun p s.2.2.2 rest
      ((s.1, s.2.1) :: tl.1, tl.2)

/-! ## Association-list maps (Python `dict` with string keys) -/

/-- Lookup in an insertion-ordered map. -/
def alookup (k : String) : List (String × α) → Option α
  | [] => none
  | (k', v) :: rest => if k' = k then some v else alookup k rest

/-- `dict[k] = v`: replace in place when present, append when absent. -/
def aset (k : String) (v : α) : List (String × α) → List (String × α)
  | [] => [(k, v)]
  | (k', v') :: rest => if k' = k then (k, v) :: rest else (k', v') :: aset k v rest

/-- `del dict[k]`. -/
def adel (k : String) : List (String × α) → List (String × α)
  | [] => []
  | (k', v') :: rest => if k' = k then rest else (k', v') :: adel k rest

/-! ## Hierarchical token bucket (`src/ratelink/algorithms/hierarchical.py`) -/

/-- Constructor parameters of `HierarchicalTokenBucket`. -/
structure HTBParams where
  global_limit : ℚ
  tenant_limit : ℚ
  user_limit : ℚ
  refill_rate : ℚ
  refill_period : ℚ
  deriving Repr

/-- Persisted state of `HierarchicalTokenBucket`: the single global bucket
and the per-tenant / per-user bucket dicts, each bucket `(tokens, last_refill)`. -/
structure HTBState where
  global_bucket : ℚ × ℚ
  tenant_buckets : List (String × (ℚ × ℚ))
  user_buckets : List (String × (ℚ × ℚ))
  deriving Repr, DecidableEq

/-- `HierarchicalTokenBucket._refill_bucket`. -/
def htbRefill (p : HTBParams) (current_tokens last_refill capacity current_time : ℚ) : ℚ :=
  let time_passed := current_time - last_refill
  if 0 < time_passed then
    min capacity (current_tokens + (time_passed / p.refill_period) * p.refill_rate)
  else current_tokens

/-- `HierarchicalTokenBucket._create_denial_response`: decision record of a
denial at `level` whose refilled token count is `remaining`. -/
def htbDenial (p : HTBParams) (limit remaining current_time : ℚ) : RLState :=
  let tokens_needed := 1 - remaining
  let retry_after := (tokens_needed / p.refill_rate) * p.refill_period
  mkRLState (pyInt limit) (pyInt remaining) (current_time + retry_after) retry_after true

/-- The user-level check and the final three-level debit of
`HierarchicalTokenBucket.allow` (lines 74-108 of the source method);
`tenantInfo` carries the tenant name and its refilled token count when a
tenant was given. -/
def htbUserPhase (p : HTBParams) (st1 : HTBState) (key : String) (weight : ℕ)
    (tenantInfo : Option (String × ℚ)) (global_tokens current_time : ℚ) :
    Bool × RLState × Option String × HTBState :=
  let st2 :=
    if alookup key st1.user_buckets = none then
      { st1 with user_buckets := aset key (p.user_limit, current_time) st1.user_buckets }
    else st1
  let ub := (alookup key st2.user_buckets).getD (p.user_limit, current_time)
  let user_tokens := htbRefill p ub.1 ub.2 p.user_limit current_time
  if user_tokens < weight then
    (false, htbDenial p p.user_limit user_tokens current_time,
     some ("user:" ++ key), st2)
  else
    let global_tokens' := global_tokens - weight
    let user_tokens' := user_tokens - weight
    let st3 :=
      { st2 with
          global_bucket := (global_tokens', current_time)
          user_buckets := aset key (user_tokens', current_time) st2.user_buckets }
    let st4 :=
      match tenantInfo with
      | some (tn, tt) =>
          { st3 with tenant_buckets := aset tn (tt - weight, current_time) st3.tenant_buckets }
      | none => st3
    (true,
     mkRLState (pyInt p.user_limit) (pyInt user_tokens')
       (current_time + p.user_limit / p.refill_rate) 0 false,
     none, st4)

/-- `HierarchicalTokenBucket.allow`: returns (admitted, decision record,
`denied_at_level` metadata, new persisted state).  Missing tenant/user
buckets are created full before their level is checked; on denial the
refilled counts are not written back. -/
def htbAllow (p : HTBParams) (st : HTBState) (key : String) (weight : ℕ)
    (tenant : Option String) (current_time : ℚ) :
    Bool × RLState × Option String × HTBState :=
  let gb := st.global_bucket
  let global_tokens := htbRefill p gb.1 gb.2 p.global_limit current_time
  if global_tokens < weight then
    (false, htbDenial p p.global_limit global_tokens current_time, some "global", st)
  else
    let st1 :=
      match tenant with
      | some tn =>
          if alookup tn st.tenant_buckets = none then
            { st with tenant_buckets := aset tn (p.tenant_limit, current_time) st.tenant_buckets }
          else st
      | none => st
    let tenant_tokens :=
      match tenant with
      | some tn =>
          let tb := (alookup tn st1.tenant_buckets).getD (p.tenant_limit, current_time)
          some (htbRefill p tb.1 tb.2 p.tenant_limit current_time)
      | none => none
    match tenant, tenant_tokens with
    | some tn, some tt =>
        if tt < weight then
          (false, htbDenial p p.tenant_limit tt current_time,
           some ("tenant:" ++ tn), st1)
        else
          htbUserPhase p st1 key weight (some (tn, tt)) global_tokens current_time
    | _, _ => htbUserPhase p st1 key weight none global_tokens current_time

/-! ## Fair queuing (`src/ratelink/algorithms/hierarchical.py`, `FairQueueingAlgorithm`) -/

/-- Constructor parameters of `FairQueueingAlgorithm`. -/
structure FQParams where
  global_limit : ℕ
  window_seconds : ℚ
  weights : List (String × ℚ)
  max_per_key : Option ℕ
  deriving Repr

/-- Persisted state: the `_key_counts` dict of per-key timestamp logs. -/
abbrev FQState := List (String × List ℚ)

/-- Effect on the whole dict of the `_cleanup_old_requests` calls made
during one `allow` (the current key and then every stored key are
filtered against the cutoff). -/
def fqCleanupAll (p : FQParams) (st : FQState) (current_time : ℚ) : FQState :=
  st.map (fun e => (e.1, e.2.filter (fun ts => current_time - p.window_seconds < ts)))

/-- `FairQueueingAlgorithm._create_denial_response`. -/
def fqDenial (p : FQParams) (reason : String) (current_time : ℚ) :
    RLState × Option String :=
  (mkRLState p.global_limit 0 (current_time + p.window_seconds)
     p.window_seconds true,
   some reason)

/-- `FairQueueingAlgorithm.allow`: returns (admitted, decision record,
`denial_reason` metadata, new persisted state).  `weight_class = none`
models Python `weight_class=None`, which falls back to the `"default"`
weight; a `max_per_key` of `some 0` is falsy in the source and disables
the per-key check. -/
def fqAllow (p : FQParams) (st : FQState) (key : String) (weight : ℕ)
    (weight_class : Option String) (current_time : ℚ) :
    Bool × RLState × Option String × FQState :=
  let st1 := fqCleanupAll p st current_time
  let requests := (alookup key st1).getD []
  let total_requests := (st1.map (fun e => e.2.length)).sum
  if p.global_limit ≤ total_requests then
    let d := fqDenial p "global_limit" current_time
    (false, d.1, d.2, st1)
  else if (match p.max_per_key with
           | some m => decide (0 < m) && decide (m ≤ requests.length)
           | none => false) then
    let d := fqDenial p "per_key_limit" current_time
    (false, d.1, d.2, st1)
  else
    let num_active_keys := (st1.filter (fun e => ¬ e.2.isEmpty)).length
    let fair_share := (p.global_limit : ℚ) / (max 1 num_active_keys : ℕ)
    let weight_multiplier := (alookup (weight_class.getD "default") p.weights).getD 1
    let adjusted_fair_share := fair_share * weight_multiplier
    if adjusted_fair_share ≤ (requests.length : ℚ) then
      let d := fqDenial p "fair_share_exceeded" current_time
      (false, d.1, d.2, st1)
    else
      let newLog := requests ++ List.replicate weight current_time
      let st2 := aset key newLog st1
      let remaining := pyInt (adjusted_fair_share - newLog.length)
      (true,
       mkRLState (pyInt adjusted_fair_share) (max 0 remaining)
         (current_time + p.window_seconds) 0 false,
       none, st2)

/-! ## In-process backend (`src/ratelink/backends/memory.py`) -/

/-- One stored record of `MemoryBackend._store`. -/
structure MemRecord where
  limit : ℤ
  remaining : ℤ
  reset_at : ℚ
  retry_after : ℚ
  violated : Bool
  timestamp : ℚ
  deriving Repr, DecidableEq

/-- State of a `MemoryBackend` instance. -/
structure MemBackend where
  ttl_seconds : Option ℚ
  cleanup_interval : ℚ
  store : List (String × MemRecord)
  last_cleanup : ℚ
  deriving Repr, DecidableEq

/-- `MemoryBackend._cleanup_expired` at instant `current_time`. -/
def memCleanupExpired (b : MemBackend) (current_time : ℚ) : MemBackend :=
  match b.ttl_seconds with
  | none => b
  | some ttl =>
      if current_time - b.last_cleanup < b.cleanup_interval then b
      else
        { b with
            store := b.store.filter (fun e => ¬ ttl < current_time - e.2.timestamp)
            last_cleanup := current_time }

/-- `MemoryBackend._get_data` at instant `current_time`: the looked-up
record (after the single-key TTL check) and the possibly shrunk backend. -/
def memGetData (b : MemBackend) (key : String) (current_time : ℚ) :
    Option MemRecord × MemBackend :=
  match alookup key b.store with
  | none => (none, b)
  | some data =>
      match b.ttl_seconds with
      | some ttl =>
          if ttl < current_time - data.timestamp then
            (none, { b with store := adel key b.store })
          else (some data, b)
      | none => (some data, b)

/-- `MemoryBackend.consume` at instant `current_time`: returns the decision
record handed back to the caller and the new backend state. -/
def memConsume (b : MemBackend) (key : String) (weight : ℕ) (current_time : ℚ) :
    RLState × MemBackend :=
  let b1 := memCleanupExpired b current_time
  let gd := memGetData b1 key current_time
  let b2 := gd.2
  let data :=
    match gd.1 with
    | none =>
        { limit := (weight : ℤ)
          remaining := 0
          reset_at := current_time + 60
          retry_after := 0
          violated := false
          timestamp := current_time : MemRecord }
    | some d =>
        { d with remaining := max 0 (d.remaining - weight), timestamp := current_time }
  let b3 := { b2 with store := aset key data b2.store }
  (mkRLState data.limit data.remaining data.reset_at data.retry_after data.violated, b3)

/-! ## Adaptive limiter (`src/ratelink/adaptive_limiter.py`) -/

/-- The thresholds and factors of `AdaptiveRateLimiter`. -/
structure AdaptiveConfig where
  base_limit : ℤ
  cpu_threshold : ℚ
  memory_threshold : ℚ
  error_threshold : ℚ
  latency_threshold : ℚ
  adaptation_factor : ℚ
  recovery_factor : ℚ
  check_interval : ℚ
  deriving Repr

/-- What one `_maybe_adapt` evaluation did. -/
inductive AdaptAction
  | noChange
  | reduced
  | increased
  deriving Repr, DecidableEq

/-- Error rate over the rolling outcome window (`false` entries are
errors). -/
def adaptErrorRate (results : List Bool) : ℚ :=
  ((results.filter (fun r => !r)).length : ℚ) / results.length

/-- Average latency of the rolling latency window. -/
def adaptAvgLatency (latencies : List ℚ) : ℚ := latencies.sum / latencies.length

/-- The disjunctive reduce signal of `_maybe_adapt`: CPU or memory above
threshold, or (with at least 10 samples) error rate or average latency
above threshold. -/
def adaptShouldReduce (cfg : AdaptiveConfig) (cpu mem : Option ℚ)
    (results : List Bool) (latencies : List ℚ) : Bool :=
  (match cpu with | some c => decide (cfg.cpu_threshold < c) | none => false) ||
  (match mem with | some m => decide (cfg.memory_threshold < m) | none => false) ||
  (decide (10 ≤ results.length) && decide (cfg.error_threshold < adaptErrorRate results)) ||
  (decide (10 ≤ latencies.length) && decide (cfg.latency_threshold < adaptAvgLatency latencies))

/-- The increase signal of `_maybe_adapt`: with at least 10 samples, error
rate below half the threshold, or average latency below half the
threshold (the two `elif` branches both set `should_increase`). -/
def adaptShouldIncrease (cfg : AdaptiveConfig)
    (results : List Bool) (latencies : List ℚ) : Bool :=
  (decide (10 ≤ results.length) && decide (adaptErrorRate results < cfg.error_threshold / 2)) ||
  (decide (10 ≤ latencies.length) && decide (adaptAvgLatency latencies < cfg.latency_threshold / 2))

/-- `AdaptiveRateLimiter._maybe_adapt` as a function of its observable
inputs: the sampled CPU and memory percentages (`none` models a `psutil`
call that raised and was swallowed), the rolling outcome window
(`true` = success) and latency window, the current limit and the last
check instant.  Returns (new current limit, new last-check instant,
action taken). -/
def maybeAdapt (cfg : AdaptiveConfig) (current_limit : ℤ) (last_check : ℚ)
    (current_time : ℚ) (cpu mem : Option ℚ)
    (results : List Bool) (latencies : List ℚ) :
    ℤ × ℚ × AdaptAction :=
  if current_time - last_check < cfg.check_interval then
    (current_limit, last_check, AdaptAction.noChange)
  else
    let should_reduce := adaptShouldReduce cfg cpu mem results latencies
    let should_increase := adaptShouldIncrease cfg results latencies
    if should_reduce && decide ((cfg.base_limit : ℚ) * (1/10) < (current_limit : ℚ)) then
      let new_limit := pyInt ((current_limit : ℚ) * cfg.adaptation_factor)
      let new_limit := max new_limit (pyInt ((cfg.base_limit : ℚ) * (1/10)))
      (new_limit, current_time, AdaptAction.reduced)
    else if should_increase && decide (current_limit < cfg.base_limit) then
      let new_limit := pyInt ((current_limit : ℚ) * cfg.recovery_factor)
      let new_limit := min new_limit cfg.base_limit
      (new_limit, current_time, AdaptAction.increased)
    else
      (current_limit, current_time, AdaptAction.noChange)

/-- The spec's refill formula `tokens₁ = min(capacity, tokens₀ + (t − t₀)·rate/period)`. -/
def tbSpecRefill (p : TBParams) (tokens0 t0 t : ℚ) : ℚ :=
  min p.capacity (tokens0 + (t - t0) * p.refill_rate / p.refill_period)

/-- Parameters of concrete scenario 1 of the spec: `capacity=10, refill=10/s`
(`initial_tokens` defaults to `capacity` in the constructor). -/
def tbScenario : TBParams := ⟨10, 10, 1, 10⟩

/-- Scenario calls: eleven unit-weight calls at t=0, then one at t=0.15. -/
def tbScenarioCalls : List (ℚ × ℕ) := List.replicate 11 ((0 : ℚ), 1) ++ [((3/20 : ℚ), 1)]

end Ratelink

namespace Ratelink

theorem tbRefill_eq_spec (p : TBParams) (tokens0 t0 t : ℚ)
    (hcap : tokens0 ≤ p.capacity) (ht : t0 ≤ t) :
    tbRefill p (some (tokens0, t0)) t = (tbSpecRefill p tokens0 t0 t, t) := by
  unfold tbRefill tbSpecRefill
  rcases lt_or_eq_of_le ht with h | h
  · simp only [sub_pos.mpr h, if_pos]
    rw [div_mul_eq_mul_div]
  · simp [← h, min_eq_right hcap]

/-- C1: token-bucket admission on a key with previous persisted state
`(tokens0, t0)` at instant `t`: the refilled level is
`tokens1 = min(capacity, tokens0 + (t−t0)·refill_rate/refill_period)`, the
request of weight `w` is admitted iff `tokens1 ≥ w`, the persisted state
becomes `(tokens1 − w, t)` on admission and `(tokens1, t)` on denial,
`retry_after` is 0 on admission and `(w − tokens1)·refill_period/refill_rate`
on denial, and on first contact the prior state is `(initial_tokens, t)`.
Concretely, with `capacity=10, refill=10/s`, ten unit admissions at t=0
succeed, an eleventh at t=0 is denied with `retry_after = 0.1`, and a
twelfth at t=0.15 succeeds with `remaining = 0`. -/
theorem tokenBucket_allow_correct (p : TBParams) (tokens0 t0 t : ℚ) (w : ℕ)
    (hrate : 0 < p.refill_rate) (hper : 0 < p.refill_period) (hw : 1 ≤ w)
    (hcap : tokens0 ≤ p.capacity) (ht : t0 ≤ t) :
    (let tokens1 := tbSpecRefill p tokens0 t0 t
     let res := tbAllow p (some (tokens0, t0)) w t
     (tbRefill p (some (tokens0, t0)) t).1 = tokens1 ∧
     (res.1 = true ↔ (w : ℚ) ≤ tokens1) ∧
     res.2.2 = some (if (w : ℚ) ≤ tokens1 then tokens1 - w else tokens1, t) ∧
     res.2.1.retry_after =
       (if (w : ℚ) ≤ tokens1 then 0
        else ((w : ℚ) - tokens1) * p.refill_period / p.refill_rate)) ∧
    tbRefill p none t = (p.initial_tokens, t) ∧
    (tbRun tbScenario none tbScenarioCalls).1.map Prod.fst
      = List.replicate 10 true ++ [false, true] ∧
    ((tbRun tbScenario none tbScenarioCalls).1[10]?.map fun r => r.2.retry_after)
      = some (1/10) ∧
    ((tbRun tbScenario none tbScenarioCalls).1[11]?.map fun r => r.2.remaining)
      = some 0 := by
  have hr := tbRefill_eq_spec p tokens0 t0 t hcap ht
  refine ⟨?_, ?_, ?_, ?_, ?_⟩
  · simp only [tbAllow, hr, mkRLState]
    refine ⟨trivial, ?_, ?_, ?_⟩
    · by_cases h : (w : ℚ) ≤ tbSpecRefill p tokens0 t0 t <;> simp [h]
    · by_cases h : (w : ℚ) ≤ tbSpecRefill p tokens0 t0 t <;> simp [h]
    · by_cases h : (w : ℚ) ≤ tbSpecRefill p tokens0 t0 t <;>
        simp [h, div_mul_eq_mul_div]
  · rfl
  · norm_num [tbRun, tbAllow, tbRefill, mkRLState, pyInt, tbScenario,
      tbScenarioCalls, List.replicate]
  · norm_num [tbRun, tbAllow, tbRefill, mkRLState, pyInt, tbScenario,
      tbScenarioCalls, List.replicate]
  · norm_num [tbRun, tbAllow, tbRefill, mkRLState, pyInt, tbScenario,
      tbScenarioCalls, List.replicate]

/-- Witness for C1: a fresh-ish bucket `(tokens=5, t0=0)` with capacity 10 and
rate 10/period admits a weight-2 request at t=1 (the bucket refills to 10). -/
theorem tokenBucket_allow_correct_witness :
    (tbAllow ⟨10, 10, 1, 10⟩ (some (5, 0)) 2 1).1 = true :=
  ((tokenBucket_allow_correct ⟨10, 10, 1, 10⟩ 5 0 1 2 (by norm_num) (by norm_num)
      (by norm_num) (by norm_num) (by norm_num)).1.2.1).mpr
    (by norm_num [tbSpecRefill])

/-- Sign of the token-bucket `retry_after`: zero on admission, strictly
positive on denial (the denial branch has `tokens < weight`). -/
theorem tbAllow_retry_sign (p : TBParams) (st : TBState) (w : ℕ) (t : ℚ)
    (hrate : 0 < p.refill_rate) (hper : 0 < p.refill_period) :
    ((tbAllow p st w t).1 = true → (tbAllow p st w t).2.1.retry_after = 0) ∧
    ((tbAllow p st w t).1 = false → 0 < (tbAllow p st w t).2.1.retry_after) := by
  unfold tbAllow
  by_cases h : (w : ℚ) ≤ (tbRefill p st t).1
  · simp [h, mkRLState]
  · simp only [h, if_false, mkRLState]
    refine ⟨by simp, fun _ => ?_⟩
    exact mul_pos (div_pos (sub_pos.mpr (lt_of_not_le h)) hrate) hper

/-- Sign of the leaky-bucket `retry_after`: zero on admission, strictly
positive on denial (a denial forces `current_size + weight > capacity`). -/
theorem lbAllow_retry_sign (p : LBParams) (st : LBState) (w : ℕ) (t : ℚ)
    (hrate : 0 < p.leak_rate) (hper : 0 < p.leak_period) :
    ((lbAllow p st w t).1 = true → (lbAllow p st w t).2.1.retry_after = 0) ∧
    ((lbAllow p st w t).1 = false → 0 < (lbAllow p st w t).2.1.retry_after) := by
  unfold lbAllow
  by_cases h : (lbLeak p st t).1.length + w ≤ p.capacity
  · simp [h, mkRLState]
  · simp only [h, if_false, mkRLState]
    refine ⟨by simp, fun _ => ?_⟩
    have hgt : (p.capacity : ℚ) < (((lbLeak p st t).1.length + w : ℕ) : ℚ) := by
      exact_mod_cast lt_of_not_le h
    exact mul_pos (div_pos (sub_pos.mpr hgt) hrate) hper

/-- The fixed-window start is at most the instant. -/
theorem fwWindowStart_le (W t : ℚ) (hW : 0 < W) : fwWindowStart W t ≤ t := by
  unfold fwWindowStart pyFloorDiv
  calc ((⌊t / W⌋ : ℤ) : ℚ) * W ≤ t / W * W :=
        mul_le_mul_of_nonneg_right (Int.floor_le _) hW.le
    _ = t := div_mul_cancel₀ t hW.ne'

/-- Any instant lies strictly before the end of its aligned window. -/
theorem lt_fwWindowStart_add (W t : ℚ) (hW : 0 < W) : t < fwWindowStart W t + W := by
  unfold fwWindowStart pyFloorDiv
  have h := Int.lt_floor_add_one (t / W)
  have := mul_lt_mul_of_pos_right h hW
  rw [div_mul_cancel₀ t hW.ne'] at this
  calc t < ((⌊t / W⌋ : ℤ) + 1 : ℚ) * W := this
    _ = (⌊t / W⌋ : ℤ) * W + W := by ring

/-- Sign of the fixed-window `retry_after`. -/
theorem fwAllow_retry_sign (p : FWParams) (st : Option (ℕ × ℚ)) (w : ℕ) (t : ℚ)
    (hW : 0 < p.window_seconds) :
    ((fwAllow p st w t).1 = true → (fwAllow p st w t).2.1.retry_after = 0) ∧
    ((fwAllow p st w t).1 = false → 0 < (fwAllow p st w t).2.1.retry_after) := by
  have hws : (fwGetCurrentWindow p st t).2 = fwWindowStart p.window_seconds t := by
    unfold fwGetCurrentWindow
    rcases st with _ | ⟨c, lws⟩
    · rfl
    · dsimp only
      split <;> rfl
  unfold fwAllow
  by_cases h : (fwGetCurrentWindow p st t).1 + w ≤ p.limit
  · simp [h, mkRLState]
  · simp only [h, if_false, mkRLState]
    refine ⟨by simp, fun _ => ?_⟩
    have := lt_fwWindowStart_add p.window_seconds t hW
    rw [← hws] at this
    linarith

/-- Sign of the GCRA `retry_after`. -/
theorem gcraAllow_retry_sign (p : GCRAParams) (st : Option ℚ) (w : ℕ) (t : ℚ) :
    ((gcraAllow p st w t).1 = true → (gcraAllow p st w t).2.1.retry_after = 0) ∧
    ((gcraAllow p st w t).1 = false → 0 < (gcraAllow p st w t).2.1.retry_after) := by
  unfold gcraAllow
  by_cases h : (st.getD t) ⊔ t + p.emission_interval * ↑w - p.burst_allowance ≤ t
  · simp [h, mkRLState]
  · simp only [h, if_false, mkRLState]
    refine ⟨by simp, fun _ => ?_⟩
    have := lt_of_not_le h
    linarith

/-- Sign of the sliding-window `retry_after`: zero on admission, strictly
positive on a denial whose cleaned log is nonempty. -/
theorem swAllow_retry_sign (p : SWParams) (reqs : List ℚ) (w : ℕ) (t : ℚ)
    (hW : 0 < p.window_seconds) :
    ((swAllow p reqs w t).1 = true → (swAllow p reqs w t).2.1.retry_after = 0) ∧
    ((swAllow p reqs w t).1 = false → swCleanup p reqs t ≠ [] →
      0 < (swAllow p reqs w t).2.1.retry_after) := by
  unfold swAllow
  by_cases h : (swCleanup p reqs t).length + w ≤ p.limit
  · simp [h, mkRLState]
  · simp only [h, if_false, mkRLState]
    refine ⟨by simp, fun _ hne => ?_⟩
    rcases hmin : (swCleanup p reqs t).min? with _ | oldest
    · exact absurd (List.min?_eq_none_iff.mp hmin) hne
    · have hmem : oldest ∈ swCleanup p reqs t :=
        List.min?_mem (fun x y => min_choice x y) hmin
      have hcut : t - p.window_seconds < oldest := by
        have := List.of_mem_filter hmem
        simpa using this
      simp only [hmin]
      have hpos : 0 < oldest + p.window_seconds - t := by linarith
      calc (0 : ℚ) < oldest + p.window_seconds - t := hpos
        _ ≤ max 0 (oldest + p.window_seconds - t) := le_max_right _ _

/-- Sign of the fair-queuing `retry_after`: zero on admission, the full
window on denial. -/
theorem fqAllow_retry_sign (p : FQParams) (st : FQState) (key : String) (w : ℕ)
    (wc : Option String) (t : ℚ) (hW : 0 < p.window_seconds) :
    ((fqAllow p st key w wc t).1 = true → (fqAllow p st key w wc t).2.1.retry_after = 0) ∧
    ((fqAllow p st key w wc t).1 = false → 0 < (fqAllow p st key w wc t).2.1.retry_after) := by
  have hsign :
      ((fqAllow p st key w wc t).1 = true ∧
        (fqAllow p st key w wc t).2.1.retry_after = 0) ∨
      ((fqAllow p st key w wc t).1 = false ∧
        (fqAllow p st key w wc t).2.1.retry_after = p.window_seconds) := by
    simp only [fqAllow, fqDenial]
    repeat' split
    all_goals first | exact Or.inl ⟨rfl, rfl⟩ | exact Or.inr ⟨rfl, rfl⟩
  refine ⟨fun h => ?_, fun h => ?_⟩
  · rcases hsign with ⟨_, h2⟩ | ⟨h1, _⟩
    · exact h2
    · rw [h] at h1; cases h1
  · rcases hsign with ⟨h1, _⟩ | ⟨_, h2⟩
    · rw [h] at h1; cases h1
    · rw [h2]; exact hW

/-- The hierarchical token bucket returns `retry_after = 0` on admission. -/
theorem htbAllow_retry_admit (p : HTBParams) (st : HTBState) (key : String)
    (w : ℕ) (tenant : Option String) (t : ℚ) :
    (htbAllow p st key w tenant t).1 = true →
    (htbAllow p st key w tenant t).2.1.retry_after = 0 := by
  have huser : ∀ st1 ti gt,
      (htbUserPhase p st1 key w ti gt t).1 = true →
      (htbUserPhase p st1 key w ti gt t).2.1.retry_after = 0 := by
    intro st1 ti gt
    simp only [htbUserPhase]
    repeat' split
    all_goals first | (intro h; exact Bool.noConfusion h) | (intro _; rfl)
  simp only [htbAllow]
  repeat' split
  all_goals first | (intro h; exact Bool.noConfusion h) | (intro _; rfl) | exact huser _ _ _

end Ratelink

namespace Ratelink

/-- C2 counterexample: the claim "denied implies retry_after > 0" is false.
A sliding-window request of weight 6 against `limit=5` on a fresh key is
denied with `retry_after = 0` (the cleaned log is empty, so the denial
branch's `else` arm returns 0.0); and a hierarchical request of weight 10
against a full global bucket of 5 tokens (rate 1/s) is denied with
`retry_after = (1 - 5)/1·1 = -4 < 0`. -/
theorem retry_after_positive_cex :
    ((swAllow ⟨5, 1⟩ [] 6 0).1 = false ∧
     (swAllow ⟨5, 1⟩ [] 6 0).2.1.violated = true ∧
     (swAllow ⟨5, 1⟩ [] 6 0).2.1.retry_after = 0) ∧
    ((htbAllow ⟨5, 5, 5, 1, 1⟩ ⟨(5, 0), [], []⟩ "u" 10 none 0).1 = false ∧
     (htbAllow ⟨5, 5, 5, 1, 1⟩ ⟨(5, 0), [], []⟩ "u" 10 none 0).2.1.retry_after = -4) := by
  refine ⟨⟨?_, ?_, ?_⟩, ?_, ?_⟩ <;>
    norm_num [swAllow, swCleanup, htbAllow, htbUserPhase, htbRefill, htbDenial,
      mkRLState, pyInt, alookup, aset]

/-- C2 amended: `retry_after = 0` on every admission, for all seven
algorithms; and `retry_after > 0` on denial for the token bucket, the
leaky bucket, the fixed window, GCRA and fair queuing, and for the
sliding window whenever its cleaned in-window log is nonempty.
(Excluded by the counterexample: a sliding-window denial with an empty
cleaned log returns 0, and a hierarchical denial returns
`(1 − remaining)/rate·period`, which is ≤ 0 whenever the failing level
still holds at least one token.) -/
theorem retry_after_sign_amended :
    (∀ (p : TBParams) (st : TBState) (w : ℕ) (t : ℚ),
      0 < p.refill_rate → 0 < p.refill_period →
      ((tbAllow p st w t).1 = true → (tbAllow p st w t).2.1.retry_after = 0) ∧
      ((tbAllow p st w t).1 = false → 0 < (tbAllow p st w t).2.1.retry_after)) ∧
    (∀ (p : SWParams) (reqs : List ℚ) (w : ℕ) (t : ℚ),
      0 < p.window_seconds →
      ((swAllow p reqs w t).1 = true → (swAllow p reqs w t).2.1.retry_after = 0) ∧
      ((swAllow p reqs w t).1 = false → swCleanup p reqs t ≠ [] →
        0 < (swAllow p reqs w t).2.1.retry_after)) ∧
    (∀ (p : FWParams) (st : Option (ℕ × ℚ)) (w : ℕ) (t : ℚ),
      0 < p.window_seconds →
      ((fwAllow p st w t).1 = true → (fwAllow p st w t).2.1.retry_after = 0) ∧
      ((fwAllow p st w t).1 = false → 0 < (fwAllow p st w t).2.1.retry_after)) ∧
    (∀ (p : GCRAParams) (st : Option ℚ) (w : ℕ) (t : ℚ),
      ((gcraAllow p st w t).1 = true → (gcraAllow p st w t).2.1.retry_after = 0) ∧
      ((gcraAllow p st w t).1 = false → 0 < (gcraAllow p st w t).2.1.retry_after)) ∧
    (∀ (p : FQParams) (st : FQState) (key : String) (w : ℕ) (wc : Option String) (t : ℚ),
      0 < p.window_seconds →
      ((fqAllow p st key w wc t).1 = true → (fqAllow p st key w wc t).2.1.retry_after = 0) ∧
      ((fqAllow p st key w wc t).1 = false → 0 < (fqAllow p st key w wc t).2.1.retry_after)) ∧
    (∀ (p : HTBParams) (st : HTBState) (key : String) (w : ℕ)
        (tenant : Option String) (t : ℚ),
      (htbAllow p st key w tenant t).1 = true →
      (htbAllow p st key w tenant t).2.1.retry_after = 0) ∧
    (∀ (p : LBParams) (st : LBState) (w : ℕ) (t : ℚ),
      0 < p.leak_rate → 0 < p.leak_period →
      ((lbAllow p st w t).1 = true → (lbAllow p st w t).2.1.retry_after = 0) ∧
      ((lbAllow p st w t).1 = false → 0 < (lbAllow p st w t).2.1.retry_after)) :=
  ⟨fun p st w t h1 h2 => tbAllow_retry_sign p st w t h1 h2,
   fun p reqs w t hW => swAllow_retry_sign p reqs w t hW,
   fun p st w t hW => fwAllow_retry_sign p st w t hW,
   fun p st w t => gcraAllow_retry_sign p st w t,
   fun p st key w wc t hW => fqAllow_retry_sign p st key w wc t hW,
   fun p st key w tenant t => htbAllow_retry_admit p st key w tenant t,
   fun p st w t h1 h2 => lbAllow_retry_sign p st w t h1 h2⟩

/-- Witness for C2 (amended): a token-bucket denial (empty bucket, weight 1),
a sliding-window denial with a nonempty log, and a leaky-bucket denial
(full queue of 2 against capacity 2) all have strictly positive
retry_after. -/
theorem retry_after_sign_amended_witness :
    0 < (tbAllow ⟨10, 10, 1, 10⟩ (some (0, 0)) 1 0).2.1.retry_after ∧
    0 < (swAllow ⟨2, 1⟩ [0, 0] 1 (1/2)).2.1.retry_after ∧
    0 < (lbAllow ⟨2, 1, 1⟩ (some ([0, 0], 0)) 1 0).2.1.retry_after :=
  ⟨(retry_after_sign_amended.1 ⟨10, 10, 1, 10⟩ (some (0, 0)) 1 0
      (by norm_num) (by norm_num)).2
    (by norm_num [tbAllow, tbRefill, mkRLState, pyInt]),
   (retry_after_sign_amended.2.1 ⟨2, 1⟩ [0, 0] 1 (1/2) (by norm_num)).2
    (by norm_num [swAllow, swCleanup, mkRLState, pyInt])
    (by norm_num [swCleanup]; exact fun h => List.cons_ne_nil 0 [0] h),
   (retry_after_sign_amended.2.2.2.2.2.2 ⟨2, 1, 1⟩ (some ([0, 0], 0)) 1 0
      (by norm_num) (by norm_num)).2
    (by norm_num [lbAllow, lbLeak, mkRLState, pyInt])⟩

end Ratelink

namespace Ratelink

/-- C3 counterexample: the invariant
`violated ⇔ retry_after > 0 ∨ remaining < weight` fails on the token
bucket.  A fresh bucket with `capacity = 10` admits a weight-10 request:
`violated = false`, yet `remaining = 0 < 10` makes the right-hand side
true. -/
theorem violated_iff_cex :
    ¬ ((tbAllow ⟨10, 10, 1, 10⟩ none 10 0).2.1.violated = true ↔
       (0 < (tbAllow ⟨10, 10, 1, 10⟩ none 10 0).2.1.retry_after ∨
        (tbAllow ⟨10, 10, 1, 10⟩ none 10 0).2.1.remaining < 10)) := by
  norm_num [tbAllow, tbRefill, mkRLState, pyInt]

/-- C3 amended: for the token bucket, `violated ⇔ retry_after > 0` at the
moment of decision, and on a violation `remaining < weight`; but an
admission may also leave `remaining < weight` (the bucket drained to
exactly zero), so `remaining < weight` does not imply `violated`. -/
theorem violated_iff_amended (p : TBParams) (st : TBState) (w : ℕ) (t : ℚ)
    (hrate : 0 < p.refill_rate) (hper : 0 < p.refill_period) (hw : 1 ≤ w) :
    ((tbAllow p st w t).2.1.violated = true ↔
      0 < (tbAllow p st w t).2.1.retry_after) ∧
    ((tbAllow p st w t).2.1.violated = true →
      (tbAllow p st w t).2.1.remaining < (w : ℤ)) := by
  unfold tbAllow
  by_cases h : (w : ℚ) ≤ (tbRefill p st t).1
  · simp [h, mkRLState]
  · have hpos : 0 < ((w : ℚ) - (tbRefill p st t).1) / p.refill_rate * p.refill_period :=
      mul_pos (div_pos (sub_pos.mpr (lt_of_not_le h)) hrate) hper
    simp only [h, if_false, mkRLState]
    refine ⟨by simpa using hpos, fun _ => ?_⟩
    have htk : (tbRefill p st t).1 < (w : ℚ) := lt_of_not_le h
    have hwpos : (0 : ℤ) < (w : ℤ) := by exact_mod_cast hw
    simp only [max_lt_iff]
    refine ⟨hwpos, ?_⟩
    unfold pyInt
    split
    · rename_i hnn
      rw [Int.floor_lt]
      exact_mod_cast htk
    · rename_i hneg
      have : (0 : ℤ) ≤ ⌊-(tbRefill p st t).1⌋ := by
        apply Int.floor_nonneg.mpr
        linarith [lt_of_not_le hneg]
      omega

/-- Witness for C3 (amended): a denial on an empty bucket has
`violated = true` and positive retry_after. -/
theorem violated_iff_amended_witness :
    (tbAllow ⟨10, 10, 1, 10⟩ (some (0, 0)) 1 0).2.1.remaining < 1 :=
  (violated_iff_amended ⟨10, 10, 1, 10⟩ (some (0, 0)) 1 0
      (by norm_num) (by norm_num) (by norm_num)).2
    (by norm_num [tbAllow, tbRefill, mkRLState, pyInt])

end Ratelink

namespace Ratelink

/-- Looking up the key just written by `aset` yields the written value. -/
theorem alookup_aset_self {α : Type} (k : String) (v : α) (m : List (String × α)) :
    alookup k (aset k v m) = some v := by
  induction m with
  | nil => simp [aset, alookup]
  | cons e rest ih =>
      obtain ⟨k', v'⟩ := e
      by_cases h : k' = k
      · simp [aset, h, alookup]
      · simp [aset, h, alookup, ih]

/-- `aset` leaves every other key's binding unchanged. -/
theorem alookup_aset_ne {α : Type} (k k' : String) (v : α) (m : List (String × α))
    (h : k' ≠ k) : alookup k' (aset k v m) = alookup k' m := by
  induction m with
  | nil =>
      have hk : ¬ (k = k') := fun hh => h hh.symm
      simp [aset, alookup, hk]
  | cons e rest ih =>
      obtain ⟨k0, v0⟩ := e
      by_cases h0 : k0 = k
      · subst h0
        have hk : ¬ (k0 = k') := fun hh => h hh.symm
        simp [aset, alookup, hk]
      · simp only [aset, h0, if_false, alookup]
        by_cases h1 : k0 = k'
        · simp [h1]
        · simp [h1, ih]

/-- C4 counterexample: `MemoryBackend.consume` is not all-or-nothing.  With
a stored record `remaining = 5`, `consume(key, 10)` clamps the stored
`remaining` to `max(0, 5-10) = 0` — a partial consumption — while
returning a state whose `violated` flag is the stored `false`, i.e. not a
denial state, and the store is mutated. -/
theorem memConsume_atomic_cex :
    ((alookup "k" (memConsume ⟨none, 60, [("k", ⟨100, 5, 0, 0, false, 0⟩)], 0⟩ "k" 10 1).2.store).map
        (fun r => r.remaining) = some 0) ∧
    (memConsume ⟨none, 60, [("k", ⟨100, 5, 0, 0, false, 0⟩)], 0⟩ "k" 10 1).1.violated = false ∧
    (memConsume ⟨none, 60, [("k", ⟨100, 5, 0, 0, false, 0⟩)], 0⟩ "k" 10 1).2.store
      ≠ [("k", ⟨100, 5, 0, 0, false, 0⟩)] := by
  refine ⟨?_, ?_, ?_⟩ <;>
    norm_num [memConsume, memCleanupExpired, memGetData, alookup, aset, mkRLState,
      MemRecord.mk.injEq]

/-- C4 amended: `consume` never denies and never leaves an existing record
untouched: on a stored record it sets `remaining := max(0, remaining − w)`
(clamped partial consumption when `remaining < w`), stamps the current
time, and returns the stored `violated` flag; on an absent key it creates
a record with `limit = w`, `remaining = 0`, `violated = false`. -/
theorem memConsume_clamp_amended (b : MemBackend) (key : String) (w : ℕ) (t : ℚ)
    (hw : 1 ≤ w) :
    (∀ d : MemRecord, (memGetData (memCleanupExpired b t) key t).1 = some d →
      alookup key (memConsume b key w t).2.store
        = some { d with remaining := max 0 (d.remaining - (w : ℤ)), timestamp := t } ∧
      (memConsume b key w t).1.violated = d.violated ∧
      (memConsume b key w t).1.remaining = max 0 (d.remaining - (w : ℤ))) ∧
    ((memGetData (memCleanupExpired b t) key t).1 = none →
      alookup key (memConsume b key w t).2.store
        = some ⟨(w : ℤ), 0, t + 60, 0, false, t⟩ ∧
      (memConsume b key w t).1.violated = false ∧
      (memConsume b key w t).1.remaining = 0) := by
  constructor
  · intro d hd
    simp only [memConsume, hd]
    refine ⟨alookup_aset_self _ _ _, rfl, ?_⟩
    simp [mkRLState]
  · intro hd
    simp only [memConsume, hd]
    refine ⟨alookup_aset_self _ _ _, rfl, ?_⟩
    simp [mkRLState]

/-- Witness for C4 (amended): consuming 10 from a record with remaining 5
stores a clamped remaining of 0. -/
theorem memConsume_clamp_amended_witness :
    alookup "k" (memConsume ⟨none, 60, [("k", ⟨100, 5, 0, 0, false, 0⟩)], 0⟩ "k" 10 1).2.store
      = some ⟨100, 0, 0, 0, false, 1⟩ := by
  have h := (memConsume_clamp_amended ⟨none, 60, [("k", ⟨100, 5, 0, 0, false, 0⟩)], 0⟩
      "k" 10 1 (by norm_num)).1 ⟨100, 5, 0, 0, false, 0⟩
    (by norm_num [memGetData, memCleanupExpired, alookup])
  simpa using h.1

end Ratelink

namespace Ratelink

/-- C5: GCRA admission with emission interval `T = period/limit` and burst
allowance `tau = T·burst`: with stored `tat0` (defaulting to `t` on first
contact), `tat1 = max(tat0, t) + w·T`; the request is admitted iff
`t ≥ tat1 − tau`; the stored tat becomes `tat1` exactly when admitted and
is unchanged on denial; `retry_after = (tat1 − tau) − t` on denial and 0
on admission; the metadata exposes the tat.  Concretely, with
`limit=100, period=60, burst=10`, ten admissions at one instant succeed
and the eleventh is denied with `retry_after = 3/5`. -/
theorem gcra_allow_correct (limit : ℕ) (period : ℚ) (burst : ℕ) (st : Option ℚ)
    (w : ℕ) (t : ℚ) (hlim : 1 ≤ limit) (hper : 0 < period) :
    (let p := mkGCRA limit period (some burst)
     let T := period / limit
     let tau := T * burst
     let tat0 := st.getD t
     let tat1 := max tat0 t + (w : ℚ) * T
     let res := gcraAllow p st w t
     (res.1 = true ↔ tat1 - tau ≤ t) ∧
     res.2.2.2 = (if tat1 - tau ≤ t then some tat1 else st) ∧
     res.2.1.retry_after = (if tat1 - tau ≤ t then 0 else (tat1 - tau) - t) ∧
     res.2.2.1 = (if tat1 - tau ≤ t then tat1 else tat0)) ∧
    (gcraRun (mkGCRA 100 60 (some 10)) none (List.replicate 11 ((0 : ℚ), 1))).1.map
        (fun r => (r.1, r.2.retry_after))
      = List.replicate 10 (true, 0) ++ [(false, 3/5)] := by
  constructor
  · have hmul : (mkGCRA limit period (some burst)).emission_interval * (w : ℚ)
        = (w : ℚ) * (period / limit) := by
      simp [mkGCRA, mul_comm]
    have htau : (mkGCRA limit period (some burst)).burst_allowance
        = period / limit * burst := by
      simp [mkGCRA]
    by_cases h : max (st.getD t) t + (w : ℚ) * (period / limit)
        - period / limit * burst ≤ t
    · simp only [gcraAllow, hmul, htau, h, if_true, mkRLState]
      simp [h]
    · simp only [gcraAllow, hmul, htau, h, if_false, mkRLState]
      simp [h]
  · norm_num [gcraRun, gcraAllow, mkGCRA, mkRLState, pyInt, List.replicate]

/-- Witness for C5: a fresh key under `limit=100, period=60, burst=10` is
admitted at t=0 and its stored tat becomes `3/5`. -/
theorem gcra_allow_correct_witness :
    (gcraAllow (mkGCRA 100 60 (some 10)) none 1 0).1 = true :=
  ((gcra_allow_correct 100 60 10 none 1 0 (by norm_num) (by norm_num)).1.1).mpr
    (by norm_num)

/-- Helper for C10: on a fresh key whose stored tat stands at
`t + j·T`, the next `k` unit-weight calls at instant `t` are all admitted
as long as `j + k ≤ limit` (burst defaulted to `limit`). -/
theorem gcra_run_fresh_admits (limit : ℕ) (period t : ℚ)
    (hlim : 1 ≤ limit) (hper : 0 < period) :
    ∀ (k j : ℕ) (st : Option ℚ),
      st.getD t = t + (j : ℚ) * (period / limit) → j + k ≤ limit →
      (gcraRun (mkGCRA limit period none) st (List.replicate k (t, 1))).1.map Prod.fst
        = List.replicate k true := by
  have hlimQ : (0 : ℚ) < limit := by exact_mod_cast hlim
  have hT : (0 : ℚ) < period / limit := div_pos hper hlimQ
  intro k
  induction k with
  | zero => intro j st _ _; simp [gcraRun]
  | succ k ih =>
      intro j st hst hjk
      have htat : st.getD t = t + (j : ℚ) * (period / limit) := hst
      have hadm : max (st.getD t) t + (mkGCRA limit period none).emission_interval * (1 : ℕ)
          - (mkGCRA limit period none).burst_allowance ≤ t := by
        have hmax : max (st.getD t) t = t + (j : ℚ) * (period / limit) := by
          rw [htat]
          exact max_eq_left (by nlinarith [hT])
        have hba : (mkGCRA limit period none).burst_allowance = period := by
          simp only [mkGCRA, Option.getD]
          exact div_mul_cancel₀ period hlimQ.ne'
        have hei : (mkGCRA limit period none).emission_interval = period / limit := rfl
        rw [hmax, hba, hei]
        have hj1 : ((j : ℚ) + 1) ≤ limit := by
          have : (j + 1 : ℕ) ≤ limit := by omega
          exact_mod_cast this
        have : ((j : ℚ) + 1) * (period / limit) ≤ (limit : ℚ) * (period / limit) :=
          mul_le_mul_of_nonneg_right hj1 hT.le
        have hcancel : (limit : ℚ) * (period / limit) = period := by
          field_simp
        push_cast
        nlinarith [this, hcancel]
      simp only [List.replicate, gcraRun, gcraAllow, List.map_cons]
      rw [if_pos hadm]
      simp only [List.cons.injEq, true_and]
      refine ih (j + 1) _ ?_ (by omega)
      have hmax : max (st.getD t) t = t + (j : ℚ) * (period / limit) := by
        rw [htat]
        exact max_eq_left (by nlinarith [hT])
      have hei : (mkGCRA limit period none).emission_interval = period / limit := rfl
      rw [Option.getD_some, hmax, hei]
      push_cast
      ring

/-- C10: constructed without a burst argument, GCRA defaults `burst` to
`limit`, so the burst allowance equals the full `period_seconds`; and on a
fresh key, any `k ≤ limit` unit-weight requests at one instant are all
admitted. -/
theorem gcra_burst_default (limit : ℕ) (period t : ℚ) (k : ℕ)
    (hlim : 1 ≤ limit) (hper : 0 < period) (hk : k ≤ limit) :
    (mkGCRA limit period none).burst = limit ∧
    (mkGCRA limit period none).burst_allowance = period ∧
    (gcraRun (mkGCRA limit period none) none (List.replicate k (t, 1))).1.map Prod.fst
      = List.replicate k true := by
  have hlimQ : (0 : ℚ) < limit := by exact_mod_cast hlim
  refine ⟨rfl, ?_, ?_⟩
  · simp only [mkGCRA, Option.getD]
    exact div_mul_cancel₀ period hlimQ.ne'
  · exact gcra_run_fresh_admits limit period t hlim hper k 0 none
      (by simp) (by omega)

/-- Witness for C10: with `limit=3, period=3`, three unit requests at t=0
on a fresh key are all admitted. -/
theorem gcra_burst_default_witness :
    (gcraRun (mkGCRA 3 3 none) none (List.replicate 3 ((0 : ℚ), 1))).1.map Prod.fst
      = List.replicate 3 true :=
  (gcra_burst_default 3 3 0 3 (by norm_num) (by norm_num) (by norm_num)).2.2

end Ratelink

namespace Ratelink

/-- C6 counterexample: the fair-share admission condition of the claim,
`per-key-used + w ≤ weighted fair share`, is false on the code.  With
`global_limit = 10`, no per-key cap, a single active key `"a"` holding one
in-window timestamp (fair share = 10), a request of weight 100 is
admitted, although `1 + 100 ≤ 10` fails. -/
theorem fq_admit_cex :
    (fqAllow ⟨10, 1, [], none⟩ [("a", [0])] "a" 100 none 0).1 = true ∧
    ¬ ((1 : ℚ) + 100 ≤ 10) := by
  constructor
  · norm_num [fqAllow, fqCleanupAll, fqDenial, alookup, aset, mkRLState, pyInt]
  · norm_num

/-- C6 amended: a fair-queuing request of weight `w` is admitted iff
(a) the total in-window count over all keys is strictly below the global
limit, (b) when `max_per_key` is set (and nonzero — a zero value is falsy
in the source and disables the check), the key's in-window count is
strictly below it, and (c) the key's in-window count is strictly below
the weighted fair share — the request's weight `w` is *not* part of the
fair-share comparison. -/
theorem fq_admit_iff_amended (p : FQParams) (st : FQState) (key : String)
    (w : ℕ) (wc : Option String) (t : ℚ) :
    (let st1 := fqCleanupAll p st t
     let requests := (alookup key st1).getD []
     let total := (st1.map (fun e => e.2.length)).sum
     let active := (st1.filter (fun e => ¬ e.2.isEmpty)).length
     let share := (p.global_limit : ℚ) / (max 1 active : ℕ)
         * ((alookup (wc.getD "default") p.weights).getD 1)
     ((fqAllow p st key w wc t).1 = true ↔
       total < p.global_limit ∧
       (∀ m, p.max_per_key = some m → 0 < m → requests.length < m) ∧
       (requests.length : ℚ) < share)) := by
  rcases hm : p.max_per_key with _ | m
  · simp only [fqAllow, fqDenial, hm]
    repeat' split
    all_goals simp_all [not_le, not_lt]
  · simp only [fqAllow, fqDenial, hm]
    repeat' split
    all_goals simp_all [not_le, not_lt, Option.some.injEq]

end Ratelink

namespace Ratelink

/-- Witness for C6 (amended): an empty fair-queuing state admits a fresh
unit request (total 0 < 10, no per-key cap, count 0 < share 10). -/
theorem fq_admit_iff_amended_witness :
    (fqAllow ⟨10, 1, [], none⟩ [] "a" 1 none 0).1 = true :=
  (fq_admit_iff_amended ⟨10, 1, [], none⟩ [] "a" 1 none 0).mpr
    ⟨by norm_num [fqCleanupAll],
     fun m hm => Option.noConfusion hm,
     by norm_num [fqCleanupAll, alookup]⟩

end Ratelink

namespace Ratelink

/-- A binding found after `aset` is either the written one or an original. -/
theorem alookup_aset_cases {α : Type} (k k' : String) (v' v : α) (m : List (String × α))
    (h : alookup k (aset k' v' m) = some v) :
    (k = k' ∧ v = v') ∨ alookup k m = some v := by
  by_cases hk : k = k'
  · subst hk
    rw [alookup_aset_self] at h
    exact Or.inl ⟨rfl, (Option.some.injEq _ _).mp h.symm⟩
  · rw [alookup_aset_ne _ _ _ _ hk] at h
    exact Or.inr h

/-- Behaviour of the user-level phase of the hierarchical `allow`: admitted
iff the refilled user bucket covers the weight; on admission the global
bucket, the user bucket and (when a tenant was carried) the tenant bucket
are all debited by the weight; on denial the global and tenant state are
untouched, existing user entries are preserved, and any new user entry is
the lazily created full bucket. -/
theorem htbUserPhase_spec (p : HTBParams) (st1 : HTBState) (key : String)
    (w : ℕ) (tenantInfo : Option (String × ℚ)) (gt t : ℚ) :
    (let ub := (alookup key st1.user_buckets).getD (p.user_limit, t)
     let ut := htbRefill p ub.1 ub.2 p.user_limit t
     let res := htbUserPhase p st1 key w tenantInfo gt t
     let st' := res.2.2.2
     (res.1 = true ↔ ¬ ut < (w : ℚ)) ∧
     (res.1 = true →
       st'.global_bucket = (gt - w, t) ∧
       alookup key st'.user_buckets = some (ut - w, t) ∧
       st'.tenant_buckets = (match tenantInfo with
         | some (tn, tt) => aset tn (tt - w, t) st1.tenant_buckets
         | none => st1.tenant_buckets)) ∧
     (res.1 = false →
       res.2.2.1 = some ("user:" ++ key) ∧ ut < (w : ℚ) ∧
       st'.global_bucket = st1.global_bucket ∧
       st'.tenant_buckets = st1.tenant_buckets ∧
       (∀ k v, alookup k st1.user_buckets = some v → alookup k st'.user_buckets = some v) ∧
       (∀ k v, alookup k st'.user_buckets = some v →
         alookup k st1.user_buckets = some v ∨ v = (p.user_limit, t)))) := by
  by_cases hu : alookup key st1.user_buckets = none
  · have hub : (alookup key
        (aset key (p.user_limit, t) st1.user_buckets)).getD (p.user_limit, t)
        = (p.user_limit, t) := by
      rw [alookup_aset_self]
      rfl
    simp only [htbUserPhase, hu, if_true, hub, Option.getD_none]
    by_cases hut : htbRefill p p.user_limit t p.user_limit t < (w : ℚ)
    · rw [if_pos hut]
      refine ⟨by simp [hut], fun h => Bool.noConfusion h, fun _ => ?_⟩
      refine ⟨rfl, hut, rfl, rfl, ?_, ?_⟩
      · intro k v hv
        have hne : k ≠ key := fun he => by rw [he, hu] at hv; cases hv
        rw [alookup_aset_ne _ _ _ _ hne]
        exact hv
      · intro k v hv
        rcases alookup_aset_cases k key _ v _ hv with ⟨_, hv'⟩ | hv'
        · exact Or.inr hv'
        · exact Or.inl hv'
    · rw [if_neg hut]
      refine ⟨by simp [hut], fun _ => ?_, fun h => Bool.noConfusion h⟩
      rcases tenantInfo with _ | ⟨tn, tt⟩ <;>
        exact ⟨rfl, by rw [alookup_aset_self], rfl⟩
  · rcases ha : alookup key st1.user_buckets with _ | v
    · exact absurd ha hu
    simp only [htbUserPhase, ha, if_neg (Option.some_ne_none v), Option.getD_some]
    by_cases hut : htbRefill p v.1 v.2 p.user_limit t < (w : ℚ)
    · rw [if_pos hut]
      refine ⟨by simp [hut], fun h => Bool.noConfusion h, fun _ => ?_⟩
      exact ⟨rfl, hut, rfl, rfl, fun k v' hv => hv, fun k v' hv => Or.inl hv⟩
    · rw [if_neg hut]
      refine ⟨by simp [hut], fun _ => ?_, fun h => Bool.noConfusion h⟩
      rcases tenantInfo with _ | ⟨tn, tt⟩ <;>
        exact ⟨rfl, by rw [alookup_aset_self], rfl⟩

end Ratelink

namespace Ratelink

/-- C7 counterexample: a hierarchical denial does not leave the persisted
state of all three levels untouched.  With `user_limit = 1`, a weight-2
request from a fresh user key with a fresh tenant is denied at the user
level, yet the call has inserted new tenant and user bucket entries into
the persisted dicts (lines 63-64 and 74-75 of the source method). -/
theorem htb_frame_cex :
    (htbAllow ⟨10, 10, 1, 1, 1⟩ ⟨(10, 0), [], []⟩ "u" 2 (some "t") 0).1 = false ∧
    (htbAllow ⟨10, 10, 1, 1, 1⟩ ⟨(10, 0), [], []⟩ "u" 2 (some "t") 0).2.2.2.user_buckets ≠ [] ∧
    (htbAllow ⟨10, 10, 1, 1, 1⟩ ⟨(10, 0), [], []⟩ "u" 2 (some "t") 0).2.2.2.tenant_buckets ≠ [] := by
  refine ⟨?_, ?_, ?_⟩ <;>
    norm_num [htbAllow, htbUserPhase, htbRefill, htbDenial, mkRLState, pyInt,
      alookup, aset]

/-- C7 amended: a hierarchical admission call either succeeds and debits
the weight from all three levels (global, the given tenant, the user), or
is denied at the highest level that lacks tokens, with the denial
metadata naming that level; a denial leaves the global bucket and every
previously existing tenant/user bucket entry untouched, but may lazily
insert a missing tenant/user bucket at full capacity with the current
timestamp (observationally equivalent to its absence). -/
theorem htb_frame_amended (p : HTBParams) (st : HTBState) (key : String)
    (w : ℕ) (tenant : Option String) (t : ℚ) :
    (let gt := htbRefill p st.global_bucket.1 st.global_bucket.2 p.global_limit t
     let tb := fun tn => (alookup tn st.tenant_buckets).getD (p.tenant_limit, t)
     let ttk := fun tn => htbRefill p (tb tn).1 (tb tn).2 p.tenant_limit t
     let ub := (alookup key st.user_buckets).getD (p.user_limit, t)
     let ut := htbRefill p ub.1 ub.2 p.user_limit t
     let res := htbAllow p st key w tenant t
     let st' := res.2.2.2
     (res.1 = true →
       st'.global_bucket = (gt - w, t) ∧
       alookup key st'.user_buckets = some (ut - w, t) ∧
       (∀ tn, tenant = some tn →
         alookup tn st'.tenant_buckets = some (ttk tn - w, t))) ∧
     (res.1 = false →
       st'.global_bucket = st.global_bucket ∧
       (∀ k v, alookup k st.tenant_buckets = some v →
         alookup k st'.tenant_buckets = some v) ∧
       (∀ k v, alookup k st.user_buckets = some v →
         alookup k st'.user_buckets = some v) ∧
       (∀ k v, alookup k st'.tenant_buckets = some v →
         alookup k st.tenant_buckets = some v ∨ v = (p.tenant_limit, t)) ∧
       (∀ k v, alookup k st'.user_buckets = some v →
         alookup k st.user_buckets = some v ∨ v = (p.user_limit, t))) ∧
     (res.1 = false →
       (res.2.2.1 = some "global" ∧ gt < (w : ℚ)) ∨
       (∃ tn, tenant = some tn ∧ res.2.2.1 = some ("tenant:" ++ tn) ∧
         ¬ gt < (w : ℚ) ∧ ttk tn < (w : ℚ)) ∨
       (res.2.2.1 = some ("user:" ++ key) ∧ ¬ gt < (w : ℚ) ∧
         (∀ tn, tenant = some tn → ¬ ttk tn < (w : ℚ)) ∧ ut < (w : ℚ)))) := by
  by_cases hg : htbRefill p st.global_bucket.1 st.global_bucket.2 p.global_limit t < (w : ℚ)
  · simp only [htbAllow, if_pos hg]
    refine ⟨fun h => Bool.noConfusion h,
      fun _ => ⟨?_, fun k v hv => hv, fun k v hv => hv,
        fun k v hv => Or.inl hv, fun k v hv => Or.inl hv⟩,
      fun _ => Or.inl ⟨?_, hg⟩⟩ <;> first | rfl | trivial
  · rcases tenant with _ | tn
    · simp only [htbAllow, if_neg hg]
      obtain ⟨h1, h2, h3⟩ := htbUserPhase_spec p st key w none
        (htbRefill p st.global_bucket.1 st.global_bucket.2 p.global_limit t) t
      refine ⟨?_, ?_, ?_⟩
      · intro hadm
        obtain ⟨ha1, ha2, _⟩ := h2 hadm
        exact ⟨ha1, ha2, fun tn h => Option.noConfusion h⟩
      · intro hden
        obtain ⟨_, _, hgb, htb, hupres, hunew⟩ := h3 hden
        refine ⟨hgb, ?_, hupres, ?_, hunew⟩
        · rw [htb]; exact fun k v hv => hv
        · rw [htb]; exact fun k v hv => Or.inl hv
      · intro hden
        obtain ⟨hlvl, hut, _⟩ := h3 hden
        exact Or.inr (Or.inr ⟨hlvl, hg, fun tn h => Option.noConfusion h, hut⟩)
    · by_cases hte : alookup tn st.tenant_buckets = none
      · have hlook : alookup tn (aset tn (p.tenant_limit, t) st.tenant_buckets)
            = some (p.tenant_limit, t) := alookup_aset_self _ _ _
        simp only [htbAllow, if_neg hg, hte, if_true, hlook, Option.getD_some,
          Option.getD_none]
        by_cases htt : htbRefill p p.tenant_limit t p.tenant_limit t < (w : ℚ)
        · rw [if_pos htt]
          refine ⟨fun h => Bool.noConfusion h, fun _ => ?_, fun _ => ?_⟩
          · refine ⟨rfl, ?_, fun k v hv => hv, ?_, fun k v hv => Or.inl hv⟩
            · intro k v hv
              have hne : k ≠ tn := fun he => by rw [he, hte] at hv; cases hv
              rw [alookup_aset_ne _ _ _ _ hne]
              exact hv
            · intro k v hv
              rcases alookup_aset_cases k tn _ v _ hv with ⟨_, hv'⟩ | hv'
              · exact Or.inr hv'
              · exact Or.inl hv'
          · exact Or.inr (Or.inl ⟨tn, rfl, rfl, hg,
              by simpa [hte, Option.getD_none] using htt⟩)
        · rw [if_neg htt]
          obtain ⟨h1, h2, h3⟩ := htbUserPhase_spec p
            { st with tenant_buckets := aset tn (p.tenant_limit, t) st.tenant_buckets }
            key w (some (tn, htbRefill p p.tenant_limit t p.tenant_limit t))
            (htbRefill p st.global_bucket.1 st.global_bucket.2 p.global_limit t) t
          refine ⟨?_, ?_, ?_⟩
          · intro hadm
            obtain ⟨ha1, ha2, ha3⟩ := h2 hadm
            refine ⟨ha1, ha2, ?_⟩
            intro tn' h
            injection h with h
            subst h
            rw [ha3, alookup_aset_self]
            simp [hte, Option.getD_none]
          · intro hden
            obtain ⟨_, _, hgb, htb, hupres, hunew⟩ := h3 hden
            refine ⟨hgb, ?_, hupres, ?_, hunew⟩
            · intro k v hv
              rw [htb]
              have hne : k ≠ tn := fun he => by rw [he, hte] at hv; cases hv
              rw [alookup_aset_ne _ _ _ _ hne]
              exact hv
            · intro k v hv
              rw [htb] at hv
              rcases alookup_aset_cases k tn _ v _ hv with ⟨_, hv'⟩ | hv'
              · exact Or.inr hv'
              · exact Or.inl hv'
          · intro hden
            obtain ⟨hlvl, hut, _⟩ := h3 hden
            refine Or.inr (Or.inr ⟨hlvl, hg, ?_, hut⟩)
            intro tn' h
            injection h with h
            subst h
            simpa [hte, Option.getD_none] using htt
      · rcases ha : alookup tn st.tenant_buckets with _ | v
        · exact absurd ha hte
        simp only [htbAllow, if_neg hg, ha, if_neg (Option.some_ne_none v),
          Option.getD_some]
        by_cases htt : htbRefill p v.1 v.2 p.tenant_limit t < (w : ℚ)
        · rw [if_pos htt]
          exact ⟨fun h => Bool.noConfusion h,
            fun _ => ⟨rfl, fun k v' hv => hv, fun k v' hv => hv,
              fun k v' hv => Or.inl hv, fun k v' hv => Or.inl hv⟩,
            fun _ => Or.inr (Or.inl ⟨tn, rfl, rfl, hg,
              by simpa [ha, Option.getD_some] using htt⟩)⟩
        · rw [if_neg htt]
          obtain ⟨h1, h2, h3⟩ := htbUserPhase_spec p st key w
            (some (tn, htbRefill p v.1 v.2 p.tenant_limit t))
            (htbRefill p st.global_bucket.1 st.global_bucket.2 p.global_limit t) t
          refine ⟨?_, ?_, ?_⟩
          · intro hadm
            obtain ⟨ha1, ha2, ha3⟩ := h2 hadm
            refine ⟨ha1, ha2, ?_⟩
            intro tn' h
            injection h with h
            subst h
            rw [ha3, alookup_aset_self]
            simp [ha, Option.getD_some]
          · intro hden
            obtain ⟨_, _, hgb, htb, hupres, hunew⟩ := h3 hden
            refine ⟨hgb, ?_, hupres, ?_, hunew⟩
            · rw [htb]; exact fun k v' hv => hv
            · rw [htb]; exact fun k v' hv => Or.inl hv
          · intro hden
            obtain ⟨hlvl, hut, _⟩ := h3 hden
            refine Or.inr (Or.inr ⟨hlvl, hg, ?_, hut⟩)
            intro tn' h
            injection h with h
            subst h
            simpa [ha, Option.getD_some] using htt

/-- Witness for C7 (amended): a weight-2 admission on a fresh three-level
state debits the user bucket from 10 to 8. -/
theorem htb_frame_amended_witness :
    alookup "u" (htbAllow ⟨10, 10, 10, 1, 1⟩ ⟨(10, 0), [], []⟩ "u" 2 (some "t") 0).2.2.2.user_buckets
      = some (8, 0) := by
  have h := ((htb_frame_amended ⟨10, 10, 10, 1, 1⟩ ⟨(10, 0), [], []⟩ "u" 2 (some "t") 0).1
    (by norm_num [htbAllow, htbUserPhase, htbRefill, htbDenial, mkRLState, pyInt,
      alookup, aset])).2.1
  norm_num [htbRefill, alookup] at h
  exact h

end Ratelink

namespace Ratelink

/-- The aligned window start is monotone in the instant. -/
theorem fwWindowStart_mono (W t t' : ℚ) (hW : 0 < W) (h : t ≤ t') :
    fwWindowStart W t ≤ fwWindowStart W t' := by
  unfold fwWindowStart pyFloorDiv
  have hfl : ⌊t / W⌋ ≤ ⌊t' / W⌋ := Int.floor_le_floor (by gcongr)
  exact mul_le_mul_of_nonneg_right (by exact_mod_cast hfl) hW.le

/-- An instant's aligned window start equals `n·W` iff the instant lies in
`[n·W, (n+1)·W)`. -/
theorem fwWindowStart_eq_iff (W t : ℚ) (n : ℤ) (hW : 0 < W) :
    fwWindowStart W t = n * W ↔ (n * W ≤ t ∧ t < (n + 1) * W) := by
  unfold fwWindowStart pyFloorDiv
  constructor
  · intro h
    have hn : ⌊t / W⌋ = n := by
      have := mul_right_cancel₀ hW.ne' (h.trans (by push_cast; ring))
      exact_mod_cast this
    constructor
    · calc (n : ℚ) * W = (⌊t / W⌋ : ℚ) * W := by rw [hn]
        _ ≤ t / W * W := mul_le_mul_of_nonneg_right (Int.floor_le _) hW.le
        _ = t := div_mul_cancel₀ t hW.ne'
    · have h1 := Int.lt_floor_add_one (t / W)
      rw [hn] at h1
      calc t = t / W * W := (div_mul_cancel₀ t hW.ne').symm
        _ < ((n : ℚ) + 1) * W := mul_lt_mul_of_pos_right (by exact_mod_cast h1) hW
  · rintro ⟨h1, h2⟩
    have hn : ⌊t / W⌋ = n := by
      rw [Int.floor_eq_iff]
      constructor
      · rw [le_div_iff₀ hW]
        exact h1
      · rw [div_lt_iff₀ hW]
        exact h2
    rw [hn]

/-- Unfolding `fwAdmittedIn` over a leading record. -/
theorem fwAdmittedIn_cons (W : ℚ) (n : ℤ) (b : Bool) (t : ℚ) (w : ℕ)
    (l : List (Bool × ℚ × ℕ)) :
    fwAdmittedIn W n ((b, t, w) :: l)
      = (if b = true ∧ n * W ≤ t ∧ t < (n + 1) * W then w else 0)
        + fwAdmittedIn W n l := by
  have hiff : (b && decide ((n * W : ℚ) ≤ t) && decide (t < (n + 1) * W)) = true
      ↔ (b = true ∧ n * W ≤ t ∧ t < (n + 1) * W) := by
    simp [Bool.and_eq_true, and_assoc]
  unfold fwAdmittedIn
  simp only [List.filter_cons]
  by_cases hb : b = true ∧ n * W ≤ t ∧ t < (n + 1) * W
  · rw [if_pos (hiff.mpr hb), if_pos hb]
    simp
  · rw [if_neg (fun hh => hb (hiff.mp hh)), if_neg hb]
    simp

/-- Induction workhorse for the fixed-window bound: running any monotone
call sequence from a state that accounts for `a` admitted units already
attributed to window `n` keeps the window-`n` total within the limit. -/
theorem fw_run_bound_aux (p : FWParams) (hW : 0 < p.window_seconds) (n : ℤ) :
    ∀ (calls : List (ℚ × ℕ)) (st : Option (ℕ × ℚ)) (a : ℕ),
      List.Pairwise (fun x y => x.1 ≤ y.1) calls →
      (match st with
       | none => a = 0
       | some (c, ws) => c ≤ p.limit ∧
           (∀ q ∈ calls, ws ≤ fwWindowStart p.window_seconds q.1) ∧
           (ws = n * p.window_seconds → a ≤ c) ∧
           (ws < n * p.window_seconds → a = 0) ∧
           (n * p.window_seconds < ws → a ≤ p.limit)) →
      a + fwAdmittedIn p.window_seconds n (fwRun p st calls).1 ≤ p.limit := by
  intro calls
  induction calls with
  | nil =>
      intro st a _ hinv
      rcases st with _ | ⟨c, ws⟩
      · have ha : a = 0 := hinv
        simp only [fwRun, fwAdmittedIn, List.filter_nil, List.map_nil, List.sum_nil]
        omega
      · obtain ⟨hc, _, heq, hlt, hgt⟩ := hinv
        simp only [fwRun, fwAdmittedIn, List.filter_nil, List.map_nil, List.sum_nil]
        rcases lt_trichotomy ws (n * p.window_seconds) with h | h | h
        · have := hlt h
          omega
        · have := heq h
          omega
        · have := hgt h
          omega
  | cons q rest ih =>
      intro st a hpw hinv
      obtain ⟨t, w⟩ := q
      have hhead := (List.pairwise_cons.mp hpw).1
      have hrest := (List.pairwise_cons.mp hpw).2
      have hcw : (fwGetCurrentWindow p st t).2 = fwWindowStart p.window_seconds t := by
        unfold fwGetCurrentWindow
        rcases st with _ | ⟨c, ws⟩
        · rfl
        · dsimp only
          split <;> rfl
      have hpair : fwGetCurrentWindow p st t
          = ((fwGetCurrentWindow p st t).1, fwWindowStart p.window_seconds t) := by
        rw [← hcw]
      have hale : a ≤ p.limit := by
        rcases st with _ | ⟨c, ws⟩
        · have ha : a = 0 := hinv
          omega
        · obtain ⟨hc, _, heq, hlt, hgt⟩ := hinv
          rcases lt_trichotomy ws (n * p.window_seconds) with h | h | h
          · have := hlt h
            omega
          · have := heq h
            omega
          · have := hgt h
            omega
      have hrun : (fwRun p st ((t, w) :: rest)).1
          = ((fwAllow p st w t).1, t, w) :: (fwRun p (fwAllow p st w t).2.2 rest).1 := rfl
      by_cases hc : (fwGetCurrentWindow p st t).1 + w ≤ p.limit
      · -- the head call is admitted
        have hfa : fwAllow p st w t
            = (true,
               mkRLState p.limit ((p.limit : ℤ) - ((fwGetCurrentWindow p st t).1 + w))
                 (fwWindowStart p.window_seconds t + p.window_seconds) 0 false,
               some ((fwGetCurrentWindow p st t).1 + w, fwWindowStart p.window_seconds t)) := by
          unfold fwAllow
          rw [hpair]
          dsimp only
          rw [if_pos hc]
        have hwin_iff : (n * p.window_seconds ≤ t ∧ t < (n + 1) * p.window_seconds)
            ↔ fwWindowStart p.window_seconds t = n * p.window_seconds :=
          (fwWindowStart_eq_iff p.window_seconds t n hW).symm
        have haux1 : fwWindowStart p.window_seconds t = n * p.window_seconds →
            a ≤ (fwGetCurrentWindow p st t).1 := by
          intro hws
          rcases hst : st with _ | ⟨c, ws⟩
          · rw [hst] at hinv
            have ha : a = 0 := hinv
            have h0 : (fwGetCurrentWindow p none t).1 = 0 := rfl
            omega
          · rw [hst] at hinv
            obtain ⟨_, hle, heq, hlt, _⟩ := hinv
            have hws_le : ws ≤ fwWindowStart p.window_seconds t :=
              hle (t, w) (List.mem_cons_self _ _)
            by_cases hlt2 : ws < fwWindowStart p.window_seconds t
            · have hcnt0 : (fwGetCurrentWindow p (some (c, ws)) t).1 = 0 := by
                simp [fwGetCurrentWindow, hlt2]
              have ha : a = 0 := hlt (by rw [← hws]; exact hlt2)
              omega
            · have hwseq : ws = fwWindowStart p.window_seconds t :=
                le_antisymm hws_le (not_lt.mp hlt2)
              have hcnt : (fwGetCurrentWindow p (some (c, ws)) t).1 = c := by
                simp [fwGetCurrentWindow, hlt2]
              rw [hcnt]
              exact heq (hwseq.trans hws)
        have haux2 : fwWindowStart p.window_seconds t < n * p.window_seconds →
            a = 0 := by
          intro hws
          rcases hst : st with _ | ⟨c, ws⟩
          · rw [hst] at hinv
            exact hinv
          · rw [hst] at hinv
            obtain ⟨_, hle, _, hlt, _⟩ := hinv
            exact hlt (lt_of_le_of_lt (hle (t, w) (List.mem_cons_self _ _)) hws)
        rw [hrun, hfa]
        dsimp only
        rw [fwAdmittedIn_cons]
        have hcontrib : (if (true = true ∧ n * p.window_seconds ≤ t
              ∧ t < (n + 1) * p.window_seconds) then w else 0)
            = (if fwWindowStart p.window_seconds t = n * p.window_seconds then w else 0) := by
          by_cases hwn : fwWindowStart p.window_seconds t = n * p.window_seconds
          · rw [if_pos hwn, if_pos ⟨rfl, hwin_iff.mpr hwn⟩]
          · rw [if_neg hwn, if_neg (fun hh => hwn (hwin_iff.mp hh.2))]
        rw [hcontrib]
        have hnext := ih (some ((fwGetCurrentWindow p st t).1 + w,
            fwWindowStart p.window_seconds t))
          (a + (if fwWindowStart p.window_seconds t = n * p.window_seconds then w else 0))
          hrest ?_
        · omega
        · refine ⟨hc, ?_, ?_, ?_, ?_⟩
          · intro q hq
            exact fwWindowStart_mono p.window_seconds t q.1 hW (hhead q hq)
          · intro hws
            rw [if_pos hws]
            have := haux1 hws
            omega
          · intro hws
            rw [if_neg (ne_of_lt hws)]
            exact haux2 hws
          · intro hws
            rw [if_neg (ne_of_gt hws)]
            exact hale
      · -- the head call is denied: state unchanged
        have hfa : fwAllow p st w t
            = (false,
               mkRLState p.limit 0 (fwWindowStart p.window_seconds t + p.window_seconds)
                 (fwWindowStart p.window_seconds t + p.window_seconds - t) true,
               st) := by
          unfold fwAllow
          rw [hpair]
          dsimp only
          rw [if_neg hc]
        rw [hrun, hfa]
        dsimp only
        rw [fwAdmittedIn_cons]
        have hcontrib : (if (false = true ∧ n * p.window_seconds ≤ t
              ∧ t < (n + 1) * p.window_seconds) then w else 0) = 0 := by
          rw [if_neg (fun hh => Bool.noConfusion hh.1)]
        rw [hcontrib]
        have hnext := ih st a hrest ?_
        · omega
        · rcases hst : st with _ | ⟨c, ws⟩
          · rw [hst] at hinv
            exact hinv
          · rw [hst] at hinv
            obtain ⟨h1, h2, h3, h4, h5⟩ := hinv
            exact ⟨h1, fun q hq => h2 q (List.mem_cons_of_mem _ hq), h3, h4, h5⟩

end Ratelink

namespace Ratelink

/-- C8: fixed-window admission control.  Windows are aligned at
`window-start(t) = ⌊t/W⌋·W`; a request arriving exactly at the stored
window's end `k·W + W` is counted against the new window (the counter
restarts from 0); and over any monotone sequence of admission calls from
a fresh key, the total admitted weight whose instants fall within the
aligned window `[n·W, (n+1)·W)` never exceeds the limit. -/
theorem fixedWindow_bound (p : FWParams) (hL : 1 ≤ p.limit) (hW : 0 < p.window_seconds) :
    (∀ t, fwWindowStart p.window_seconds t
        = ((⌊t / p.window_seconds⌋ : ℤ) : ℚ) * p.window_seconds) ∧
    (∀ (c : ℕ) (k : ℤ), fwGetCurrentWindow p (some (c, (k : ℚ) * p.window_seconds))
        ((k : ℚ) * p.window_seconds + p.window_seconds)
        = (0, (k : ℚ) * p.window_seconds + p.window_seconds)) ∧
    (∀ (calls : List (ℚ × ℕ)) (n : ℤ),
      List.Pairwise (fun x y => x.1 ≤ y.1) calls →
      fwAdmittedIn p.window_seconds n (fwRun p none calls).1 ≤ p.limit) := by
  refine ⟨fun t => rfl, ?_, ?_⟩
  · intro c k
    have hws : fwWindowStart p.window_seconds
        ((k : ℚ) * p.window_seconds + p.window_seconds)
        = ((k + 1 : ℤ) : ℚ) * p.window_seconds := by
      rw [fwWindowStart_eq_iff _ _ _ hW]
      constructor
      · push_cast
        linarith
      · push_cast
        linarith
    have hlt : (k : ℚ) * p.window_seconds < fwWindowStart p.window_seconds
        ((k : ℚ) * p.window_seconds + p.window_seconds) := by
      rw [hws]
      push_cast
      linarith
    have hcast : ((k + 1 : ℤ) : ℚ) * p.window_seconds
        = (k : ℚ) * p.window_seconds + p.window_seconds := by
      push_cast
      ring
    unfold fwGetCurrentWindow
    dsimp only
    rw [if_pos hlt, hws, hcast]
  · intro calls n hmono
    have h := fw_run_bound_aux p hW n calls none 0 hmono rfl
    simpa using h

/-- Witness for C8: with `limit=1, window=1`, the calls at t=0 and t=1/2
admit a total weight of at most 1 inside window `[0, 1)`. -/
theorem fixedWindow_bound_witness :
    fwAdmittedIn 1 0 (fwRun ⟨1, 1⟩ none [((0 : ℚ), 1), ((1/2 : ℚ), 1)]).1 ≤ 1 :=
  (fixedWindow_bound ⟨1, 1⟩ (le_refl 1) (by norm_num)).2.2
    [((0 : ℚ), 1), ((1/2 : ℚ), 1)] 0
    (by norm_num [List.pairwise_cons])

end Ratelink

namespace Ratelink

/-- C9 counterexample: an increase is performed although the error-rate
condition fails.  With `error_threshold = 1/10`, ten outcome samples with
one error give an error rate of exactly `1/10`, which is *not* below
`error_threshold/2 = 1/20`; the ten latency samples of `1/10` are below
`latency_threshold/2`, and that alone triggers the increase (the two
increase signals are disjunctive in `_maybe_adapt`). -/
theorem adaptive_increase_cex :
    (maybeAdapt ⟨100, 80, 85, 1/10, 1, 1/2, 11/10, 10⟩ 50 0 20 (some 50) (some 50)
        (List.replicate 9 true ++ [false]) (List.replicate 10 (1/10 : ℚ))).2.2
      = AdaptAction.increased ∧
    ¬ (adaptErrorRate (List.replicate 9 true ++ [false]) < (1/10 : ℚ) / 2) := by
  constructor
  · norm_num [maybeAdapt, adaptShouldReduce, adaptShouldIncrease, adaptErrorRate,
      adaptAvgLatency, pyInt, List.replicate]
  · norm_num [adaptErrorRate, List.replicate]

/-- C9 amended: `_maybe_adapt` increases the limit iff the check interval
has elapsed, the reduce branch is not taken, at least one of the two
improvement signals holds (error rate below half threshold with ≥ 10
samples, or average latency below half threshold with ≥ 10 samples), and
`current_limit < base_limit`.  The two improvement signals are
disjunctive, not conjunctive as claimed. -/
theorem adaptive_increase_amended (cfg : AdaptiveConfig) (cl : ℤ) (lc t : ℚ)
    (cpu mem : Option ℚ) (rs : List Bool) (ls : List ℚ) :
    ((maybeAdapt cfg cl lc t cpu mem rs ls).2.2 = AdaptAction.increased ↔
      (cfg.check_interval ≤ t - lc ∧
       ¬ (adaptShouldReduce cfg cpu mem rs ls = true ∧
          (cfg.base_limit : ℚ) * (1/10) < (cl : ℚ)) ∧
       adaptShouldIncrease cfg rs ls = true ∧
       cl < cfg.base_limit)) := by
  unfold maybeAdapt
  by_cases h1 : t - lc < cfg.check_interval
  · rw [if_pos h1]
    constructor
    · intro h
      exact AdaptAction.noConfusion h
    · rintro ⟨hint, _⟩
      exact absurd hint (not_le.mpr h1)
  · rw [if_neg h1]
    by_cases h2 : (adaptShouldReduce cfg cpu mem rs ls
        && decide ((cfg.base_limit : ℚ) * (1/10) < (cl : ℚ))) = true
    · rw [if_pos h2]
      rw [Bool.and_eq_true, decide_eq_true_eq] at h2
      constructor
      · intro h
        exact AdaptAction.noConfusion h
      · rintro ⟨_, hnred, _, _⟩
        exact absurd h2 hnred
    · rw [if_neg h2]
      by_cases h3 : (adaptShouldIncrease cfg rs ls && decide (cl < cfg.base_limit)) = true
      · rw [if_pos h3]
        rw [Bool.and_eq_true, decide_eq_true_eq] at h3
        refine iff_of_true rfl ⟨not_lt.mp h1, ?_, h3.1, h3.2⟩
        intro hred
        exact h2 (by rw [Bool.and_eq_true, decide_eq_true_eq]; exact hred)
      · rw [if_neg h3]
        constructor
        · intro h
          exact AdaptAction.noConfusion h
        · rintro ⟨_, _, hinc, hlt⟩
          exact absurd (by rw [Bool.and_eq_true, decide_eq_true_eq]; exact ⟨hinc, hlt⟩) h3

/-- Witness for C9 (amended): with no outcome samples, good latencies
alone trigger an increase from 50 toward the base limit 100. -/
theorem adaptive_increase_amended_witness :
    (maybeAdapt ⟨100, 80, 85, 1/10, 1, 1/2, 11/10, 10⟩ 50 0 20 none none
        [] (List.replicate 10 (1/4 : ℚ))).2.2 = AdaptAction.increased :=
  (adaptive_increase_amended ⟨100, 80, 85, 1/10, 1, 1/2, 11/10, 10⟩ 50 0 20 none none
      [] (List.replicate 10 (1/4 : ℚ))).mpr
    ⟨by norm_num,
     by rintro ⟨hred, _⟩
        revert hred
        norm_num [adaptShouldReduce, adaptErrorRate, adaptAvgLatency, List.replicate],
     by norm_num [adaptShouldIncrease, adaptErrorRate, adaptAvgLatency, List.replicate],
     by norm_num⟩

end Ratelink
